import Mathlib

/-!
Verification development for a small in-memory relational database
(`domain.rs`, `database.rs`, `commands.rs`, `queries.rs`).

Modelling conventions (shallow embedding):
* `i64` is modelled as `Int` (no claim involves key or value arithmetic,
  so overflow never matters for keys; the integer-literal parser performs
  the explicit `i64` range check the Rust `str::parse::<i64>` does).
* `f64` payloads are modelled as exact `Int` values: no claim depends on
  float arithmetic, NaN or float formatting, only on the variant tags.
* `HashMap<String, V>` is modelled as a function `String → Option V` when
  the code only ever calls `get`/`insert` on it (record fields, the table
  registry), and as a duplicate-free association list in an arbitrary but
  fixed iteration order when the code iterates it (the schema).
* `BTreeMap<K, Record>` is modelled as an association list sorted strictly
  by key, with insertion, removal and `values()` defined structurally.
* `&mut self` methods are modelled by returning the post-state next to the
  result; an early `return Err(..)` before any mutation returns the
  pre-state unchanged, exactly as the Rust control flow does.
-/

namespace RustDB

/-- The `Value` enum of `domain.rs`.  The `f64` payload of `Float` is
modelled as an exact `Int`; no claim depends on float arithmetic. -/
inductive Value where
  | Int (i : Int)
  | String (s : String)
  | Bool (b : Bool)
  | Float (f : Int)
deriving DecidableEq

/-- The `DataType` enum of `domain.rs`. -/
inductive DataType where
  | Bool
  | Int
  | Float
  | String
deriving DecidableEq

/-- Alias for the builtin string type, usable inside the `Value` namespace
where a bare `String` would denote the `Value.String` constructor. -/
abbrev Str := String

/-- The `Display` impl for `Value` in `domain.rs`: each payload is printed
with its own `Display` (strings without quotes, bools as true/false). -/
def Value.display : Value → Str
  | .Int i => toString i
  | .String s => s
  | .Bool b => if b then "true" else "false"
  | .Float f => toString f

/-- Discriminant of a `Value` in declaration order, as used by the derived
`PartialEq`/`PartialOrd` impls (`Int` = 0, `String` = 1, `Bool` = 2,
`Float` = 3). -/
def Value.discr : Value → Nat
  | .Int _ => 0
  | .String _ => 1
  | .Bool _ => 2
  | .Float _ => 3

/-- The derived `PartialOrd::partial_cmp` on `Value`: values of the same
variant compare by payload, values of different variants compare by
variant declaration order.  (For same-variant `Float` the Rust comparison
is the `f64` one; with the exact-`Int` payload model it is total.) -/
def Value.cmpOpt (a b : Value) : Option Ordering :=
  match a, b with
  | .Int x, .Int y => some (compare x y)
  | .String x, .String y => some (compare x y)
  | .Bool x, .Bool y => some (compare x y)
  | .Float x, .Float y => some (compare x y)
  | _, _ => some (compare a.discr b.discr)

/-- The `Operator` enum of `commands.rs`. -/
inductive Operator where
  | Equal
  | NotEqual
  | GreaterThan
  | GreaterThanOrEqual
  | LessThan
  | LessThanOrEqual
deriving DecidableEq

/-- The `Condition` struct of `commands.rs`. -/
structure Condition where
  column : String
  operator : Operator
  value : Value

/-- `evaluate_condition` of `commands.rs`: `==`/`!=` are the derived
structural `PartialEq`, the four ordering operators are the derived
`PartialOrd` comparison operators (`a < b` iff `partial_cmp = Some(Less)`,
`a <= b` iff `partial_cmp ∈ {Some(Less), Some(Equal)}`, etc.). -/
def evaluate_condition (value1 value2 : Value) (operator : Operator) : Bool :=
  match operator with
  | .Equal => value1 == value2
  | .NotEqual => !(value1 == value2)
  | .GreaterThan => Value.cmpOpt value1 value2 == some .gt
  | .GreaterThanOrEqual =>
      Value.cmpOpt value1 value2 == some .gt || Value.cmpOpt value1 value2 == some .eq
  | .LessThan => Value.cmpOpt value1 value2 == some .lt
  | .LessThanOrEqual =>
      Value.cmpOpt value1 value2 == some .lt || Value.cmpOpt value1 value2 == some .eq

/-- The `DbError` enum of `error.rs`; the `io::Error` payload of `IoError`
is modelled by its message string. -/
inductive DbError where
  | TableNotFound (s : String)
  | TableAlreadyExists (s : String)
  | ColumnNotFound (s : String)
  | TypeMismatch (s : String)
  | InvalidCommand (s : String)
  | KeyMismatch
  | DuplicateKey
  | SyntaxError (s : String)
  | IoError (s : String)
  | CommandError (s : String)
  | InvalidPath (s : String)
deriving DecidableEq

/-- `DbResult<T>` of `error.rs`. -/
abbrev DbResult (α : Type) := Except DbError α

/-- Decidable equality of results, so that concrete runs can be checked by
evaluation. -/
instance {ε α : Type} [DecidableEq ε] [DecidableEq α] : DecidableEq (Except ε α) :=
  fun x y =>
    match x, y with
    | .ok a, .ok b =>
      if h : a = b then .isTrue (by rw [h]) else .isFalse (by simp [h])
    | .error a, .error b =>
      if h : a = b then .isTrue (by rw [h]) else .isFalse (by simp [h])
    | .ok _, .error _ => .isFalse (by simp)
    | .error _, .ok _ => .isFalse (by simp)

/-- The `Record` struct of `domain.rs`; its `fields: HashMap<String, Value>`
is modelled as a lookup function (the code only ever calls `get` on it and
builds it by `collect`, i.e. repeated `insert`). -/
structure Record where
  fields : String → Option Value

/-- A schema, the `HashMap<String, DataType>` of `domain.rs`/`database.rs`,
modelled as a duplicate-free association list whose order stands for the
map's (arbitrary) iteration order. -/
abbrev Schema := List (String × DataType)

/-- The boolean `valid` computed inside `Record::check_type`. -/
def typeValid (val : Value) (col_type : DataType) : Bool :=
  match val, col_type with
  | .Bool _, .Bool => true
  | .Int _, .Int => true
  | .String _, .String => true
  | .Float _, .Float => true
  | _, _ => false

/-- `Record::check_type` of `domain.rs`. -/
def Record.check_type (val : Value) (col_type : DataType) : DbResult Unit :=
  if typeValid val col_type then .ok () else .error (.TypeMismatch "Invalid type")

/-- `Record::validate` of `domain.rs`: iterate the schema; a column missing
from the record is `ColumnNotFound`, a present value of the wrong variant is
`TypeMismatch` (propagated from `check_type` by the `?`). -/
def Record.validate (r : Record) (schema : Schema) : DbResult Unit :=
  match schema with
  | [] => .ok ()
  | (col_name, col_type) :: rest =>
    match r.fields col_name with
    | some val =>
      match Record.check_type val col_type with
      | .ok _ => r.validate rest
      | .error e => .error e
    | none => .error (.ColumnNotFound col_name)

/-- The `DatabaseKey` trait of `domain.rs` (its `Ord + Clone` bounds are
carried separately as a `LinearOrder` instance argument). -/
class DatabaseKey (K : Type) where
  from_value : Value → Option K

/-- `impl DatabaseKey for i64`. -/
instance : DatabaseKey Int where
  from_value v :=
    match v with
    | .Int n => some n
    | _ => none

/-- `impl DatabaseKey for String`. -/
instance : DatabaseKey String where
  from_value v :=
    match v with
    | .String s => some s
    | _ => none

section Storage

variable {K : Type} [LinearOrder K]

/-- `BTreeMap::insert` on the sorted-association-list model: place the new
entry at its key position, replacing an existing entry with the same key. -/
def btInsert (k : K) (r : Record) : List (K × Record) → List (K × Record)
  | [] => [(k, r)]
  | (k', r') :: rest =>
    if k < k' then (k, r) :: (k', r') :: rest
    else if k = k' then (k, r) :: rest
    else (k', r') :: btInsert k r rest

/-- `BTreeMap::contains_key`. -/
def btContainsKey (k : K) (l : List (K × Record)) : Bool :=
  l.any (fun p => decide (p.1 = k))

/-- `BTreeMap::remove`: remove and return the entry stored at the key. -/
def btRemove (k : K) : List (K × Record) → Option Record × List (K × Record)
  | [] => (none, [])
  | (k', r') :: rest =>
    if k = k' then (some r', rest)
    else
      let res := btRemove k rest
      (res.1, (k', r') :: res.2)

/-- The `Table` struct of `database.rs`. -/
structure Table (K : Type) where
  name : String
  pk_name : String
  schema : Schema
  store : List (K × Record)

/-- `Table::new`. -/
def Table.new (name : String) (schema : Schema) (pk_name : String) : Table K :=
  ⟨name, pk_name, schema, []⟩

variable [DatabaseKey K]

/-- `Table::insert` of `database.rs`: validate against the schema, look up
the primary-key field, narrow it to the key type, reject duplicates, then
store.  The table is returned next to the result; every early error exit
happens before the single mutation, so it returns the table unchanged. -/
def Table.insert (t : Table K) (record : Record) : DbResult Unit × Table K :=
  match record.validate t.schema with
  | .error e => (.error e, t)
  | .ok _ =>
    match record.fields t.pk_name with
    | none =>
      (.error (.ColumnNotFound ("Primary key " ++ t.pk_name ++ " not found")), t)
    | some pk_value =>
      match DatabaseKey.from_value (K := K) pk_value with
      | none => (.error .KeyMismatch, t)
      | some key =>
        if btContainsKey key t.store then
          (.error .DuplicateKey, t)
        else
          (.ok (), { t with store := btInsert key record t.store })

/-- `Table::delete` of `database.rs`: `self.store.remove(key)`. -/
def Table.delete (t : Table K) (key : K) : Option Record × Table K :=
  let res := btRemove key t.store
  (res.1, { t with store := res.2 })

/-- `Table::scan` of `database.rs`: `self.store.values()`, i.e. the stored
records in ascending key order. -/
def Table.scan (t : Table K) : List Record :=
  t.store.map Prod.snd

/-- The `Database` struct of `database.rs`; its `tables: HashMap<String,
Table<K>>` is modelled as a lookup function (only `get`-like and
`insert`-like operations are performed on it). -/
structure Database (K : Type) where
  tables : String → Option (Table K)

/-- `Database::new`. -/
def Database.new : Database K :=
  ⟨fun _ => none⟩

/-- `Database::create_table`: register the table unless the name is taken. -/
def Database.create_table (db : Database K) (table : Table K) :
    DbResult Unit × Database K :=
  if (db.tables table.name).isSome then
    (.error (.TableAlreadyExists "Table already exists"), db)
  else
    (.ok (), ⟨fun n => if n = table.name then some table else db.tables n⟩)

/-- `Database::get_table` (and `get_table_mut`, which performs the same
lookup). -/
def Database.get_table (db : Database K) (table : String) : DbResult (Table K) :=
  match db.tables table with
  | some t => .ok t
  | none => .error (.TableNotFound table)

/-- Writing a table back through the `&mut` reference handed out by
`get_table_mut`: the registry maps the name to the updated table. -/
def Database.setTable (db : Database K) (name : String) (t : Table K) :
    Database K :=
  ⟨fun n => if n = name then some t else db.tables n⟩

end Storage

section Commands

variable {K : Type} [LinearOrder K] [DatabaseKey K]

/-- The per-record condition step inside `SelectCommand::execute`: with no
condition every record is kept; otherwise the condition column is looked up
(absent → `ColumnNotFound` error) and `evaluate_condition` applied. -/
def rowFilter (condition : Option Condition) (record : Record) : DbResult Bool :=
  match condition with
  | none => .ok true
  | some c =>
    match record.fields c.column with
    | none => .error (.ColumnNotFound c.column)
    | some value => .ok (evaluate_condition value c.value c.operator)

/-- The projection loop inside `SelectCommand::execute`: format each
requested field of the record in order; an absent field is a
`ColumnNotFound` error. -/
def projectRow (fields : List String) (record : Record) : DbResult (List String) :=
  match fields with
  | [] => .ok []
  | field :: rest =>
    match record.fields field with
    | none => .error (.ColumnNotFound field)
    | some val =>
      match projectRow rest record with
      | .ok row => .ok (Value.display val :: row)
      | .error e => .error e

/-- The scan loop of `SelectCommand::execute` over the scanned records:
filter (with possible error), project survivors, join each row with a
comma-space. -/
def selectRows (condition : Option Condition) (fields : List String) :
    List Record → DbResult (List String)
  | [] => .ok []
  | record :: rest =>
    match rowFilter condition record with
    | .error e => .error e
    | .ok keep =>
      if keep then
        match projectRow fields record with
        | .error e => .error e
        | .ok row =>
          match selectRows condition fields rest with
          | .error e => .error e
          | .ok rows => .ok (String.intercalate ", " row :: rows)
      else
        selectRows condition fields rest

/-- `SelectCommand::execute` of `commands.rs`. -/
def SelectCommand.execute (t : Table K) (fields : List String)
    (condition : Option Condition) : DbResult (Option String) :=
  match selectRows condition fields t.scan with
  | .error e => .error e
  | .ok rows => .ok (some (String.intercalate "\n" rows))

/-- `CreateTableCommand::execute` of `commands.rs`. -/
def CreateTableCommand.execute (db : Database K) (name pk_name : String)
    (schema : Schema) : DbResult (Option String) × Database K :=
  let table : Table K := Table.new name schema pk_name
  match db.create_table table with
  | (.ok _, db') => (.ok (some ("Table " ++ name ++ " created.")), db')
  | (.error e, db') => (.error e, db')

/-- `InsertCommand::execute` of `commands.rs`. -/
def InsertCommand.execute (t : Table K) (record : Record) :
    DbResult (Option String) × Table K :=
  match t.insert record with
  | (.ok _, t') => (.ok (some "Record inserted"), t')
  | (.error e, t') => (.error e, t')

/-- `DeleteCommand::execute` of `commands.rs`: absence becomes an explicit
`KeyMismatch` error. -/
def DeleteCommand.execute (t : Table K) (key : K) :
    DbResult (Option String) × Table K :=
  match t.delete key with
  | (some _, t') => (.ok (some "Deleted record"), t')
  | (none, t') => (.error .KeyMismatch, t')

end Commands

/-- The `Query` enum of `queries.rs`. -/
inductive Query where
  | Select (table : String) (fields : List String) (condition : Option Condition)
  | Create (table : String) (pk : String) (columns : List (String × DataType))
  | Insert (table : String) (values : List (String × Value))
  | Delete (table : String) (key_value : Value)
  | SaveAs (path : String)
  | ReadFrom (path : String)

/-- One `HashMap::insert` step on the lookup-function model of a record's
fields. -/
def hmStep (m : String → Option Value) (p : String × Value) :
    String → Option Value :=
  fun x => if x = p.1 then some p.2 else m x

/-- `values.into_iter().collect::<HashMap<_,_>>()` in the Insert branch of
`run_generic_query`: repeated `HashMap::insert`, so a later occurrence of a
column overwrites an earlier one. -/
def collectFields (values : List (String × Value)) : String → Option Value :=
  values.foldl hmStep (fun _ => none)

/-- One `HashMap::insert` step on the association-list schema model:
replace in place if the key is present, otherwise append. -/
def hmInsertCol (m : Schema) (k : String) (v : DataType) : Schema :=
  if m.any (fun p => p.1 = k) then
    m.map (fun p => if p.1 = k then (k, v) else p)
  else
    m ++ [(k, v)]

/-- `columns.into_iter().collect::<HashMap<_,_>>()` in the Create branch of
`run_generic_query`. -/
def collectSchema (columns : List (String × DataType)) : Schema :=
  columns.foldl (fun m p => hmInsertCol m p.1 p.2) []

/-- `run_generic_query` of `database.rs`: dispatch a parsed `Query` to the
matching command, resolving the table and (for Delete) the key first.
`SaveAs`/`ReadFrom` fall into the catch-all `Ok(None)` arm. -/
def run_generic_query {K : Type} [LinearOrder K] [DatabaseKey K]
    (database : Database K) (query : Query) :
    DbResult (Option String) × Database K :=
  match query with
  | .Create table pk columns =>
    let schema := collectSchema columns
    CreateTableCommand.execute database table pk schema
  | .Insert table values =>
    match database.get_table table with
    | .error e => (.error e, database)
    | .ok t =>
      let record : Record := ⟨collectFields values⟩
      match InsertCommand.execute t record with
      | (res, t') => (res, database.setTable table t')
  | .Select table fields condition =>
    match database.get_table table with
    | .error e => (.error e, database)
    | .ok t => (SelectCommand.execute t fields condition, database)
  | .Delete table key_value =>
    match DatabaseKey.from_value (K := K) key_value with
    | none => (.error .KeyMismatch, database)
    | some key =>
      match database.get_table table with
      | .error e => (.error e, database)
      | .ok t =>
        match DeleteCommand.execute t key with
        | (res, t') => (res, database.setTable table t')
  | _ => (.ok none, database)

/-! ### Parser model

`queries.rs` drives a pest parser whose grammar file `grammar.pest` is not
part of `src/`.  The grammar stage is therefore modelled from the spec
(section 4.1): its outcome is either an error message or a list of pairs,
each pair carrying a rule tag, its matched text and its inner pairs.  The
functions `parse`, `parse_select_command`, `parse_where`, `parse_value`,
`parse_create_command`, `parse_delete_command` and `parse_insert_command`
below are translated from `queries.rs` over that pair model. -/

/-- Modelled from the spec: the rule names of the missing `grammar.pest`,
as matched on by `queries.rs` (`other` stands for any further rule, e.g.
the silent tokens a hand-written grammar may expose). -/
inductive Rule where
  | select_cmd
  | create_cmd
  | insert_cmd
  | delete_cmd
  | save_cmd
  | read_cmd
  | ident
  | where_clause
  | value_w
  | int_w
  | float_w
  | bool_w
  | string_w
  | assigment
  | column_def
  | comparison_op
  | path
  | other
deriving DecidableEq

/-- Modelled from the spec: a pest pair — rule tag, matched text, inner
pairs. -/
inductive Pair where
  | mk (rule : Rule) (text : String) (inner : List Pair)

/-- Rule tag of a pair (`Pair::as_rule`). -/
def Pair.rule : Pair → Rule
  | .mk r _ _ => r

/-- Matched text of a pair (`Pair::as_str`). -/
def Pair.text : Pair → String
  | .mk _ s _ => s

/-- Inner pairs of a pair (`Pair::into_inner`). -/
def Pair.inner : Pair → List Pair
  | .mk _ _ i => i

/-- Digit run to number, most significant first. -/
def digitsToNat (cs : List Char) : Nat :=
  cs.foldl (fun n c => n * 10 + (c.toNat - 48)) 0

/-- A non-empty all-digit run parsed to a number, otherwise nothing. -/
def parseDigits (cs : List Char) : Option Nat :=
  if !cs.isEmpty && cs.all Char.isDigit then some (digitsToNat cs) else none

/-- Modelled from the spec: Rust `str::parse::<i64>` — optional sign,
decimal digits, 64-bit signed range check. -/
def parseI64 (s : String) : Option Int :=
  let p : Option Int :=
    match s.toList with
    | '-' :: rest => (parseDigits rest).map (fun n => -(n : Int))
    | '+' :: rest => (parseDigits rest).map (fun n => (n : Int))
    | cs => (parseDigits cs).map (fun n => (n : Int))
  p.bind (fun n => if -(2 ^ 63) ≤ n ∧ n < 2 ^ 63 then some n else none)

/-- Digits, a dot, digits — the spec's float-literal shape.  The payload is
abstracted to the integer part: no claim inspects a float's numeric value. -/
def parseFracDigits (cs : List Char) : Option Nat :=
  match cs.splitOn '.' with
  | [ipart, fpart] =>
    if !ipart.isEmpty && ipart.all Char.isDigit
        && !fpart.isEmpty && fpart.all Char.isDigit then
      some (digitsToNat ipart)
    else none
  | _ => none

/-- Modelled from the spec: Rust `str::parse::<f64>` restricted to the
spec's float-literal shape (decimal with fractional part, optional sign). -/
def parseF64 (s : String) : Option Int :=
  match s.toList with
  | '-' :: rest => (parseFracDigits rest).map (fun n => -(n : Int))
  | cs => (parseFracDigits cs).map (fun n => (n : Int))

/-- `parse_value` of `queries.rs`: look at the first inner pair and build
the matching `Value`; string literals drop their surrounding quotes. -/
def parse_value (pair : Pair) : DbResult Value :=
  match pair.inner with
  | [] => .error (.SyntaxError "No value in VALUE")
  | inner :: _ =>
    match inner.rule with
    | .int_w =>
      match parseI64 inner.text with
      | some n => .ok (.Int n)
      | none => .error (.SyntaxError "Bad Int")
    | .float_w =>
      match parseF64 inner.text with
      | some f => .ok (.Float f)
      | none => .error (.SyntaxError "Bad Float")
    | .bool_w => .ok (.Bool (inner.text == "true"))
    | .string_w =>
      if inner.text.length ≥ 2 then
        .ok (.String ((inner.text.drop 1).dropRight 1))
      else
        .error (.SyntaxError "Bad string literal")
    | _ => .error (.SyntaxError "Unknown type of the value")

/-- `parse_where` of `queries.rs`: column, operator text, value — the value
is parsed before the operator text is matched, exactly as in the source. -/
def parse_where (pair : Pair) : DbResult Condition :=
  match pair.inner with
  | [] => .error (.SyntaxError "No column in WHERE")
  | colp :: rest =>
    match rest with
    | [] => .error (.SyntaxError "No operator")
    | opp :: rest2 =>
      match rest2 with
      | [] => .error (.SyntaxError "No value in WHERE")
      | valp :: _ =>
        match parse_value valp with
        | .error e => .error e
        | .ok value =>
          match opp.text with
          | "=" => .ok ⟨colp.text, .Equal, value⟩
          | "!=" => .ok ⟨colp.text, .NotEqual, value⟩
          | "<=" => .ok ⟨colp.text, .LessThanOrEqual, value⟩
          | ">=" => .ok ⟨colp.text, .GreaterThanOrEqual, value⟩
          | "<" => .ok ⟨colp.text, .LessThan, value⟩
          | ">" => .ok ⟨colp.text, .GreaterThan, value⟩
          | _ => .error (.SyntaxError "Invalid operator")

/-- The loop of `parse_select_command`: idents accumulate as fields, a
where clause is parsed (overwriting any previous one), other pairs are
skipped. -/
def selectFold : List Pair → List String → Option Condition →
    DbResult (List String × Option Condition)
  | [], fields, cond => .ok (fields, cond)
  | p :: rest, fields, cond =>
    match p.rule with
    | .ident => selectFold rest (fields ++ [p.text]) cond
    | .where_clause =>
      match parse_where p with
      | .ok c => selectFold rest fields (some c)
      | .error e => .error e
    | _ => selectFold rest fields cond

/-- `parse_select_command` of `queries.rs`: the last collected ident is
popped off as the table name. -/
def parse_select_command (pair : Pair) : DbResult Query :=
  match selectFold pair.inner [] none with
  | .error e => .error e
  | .ok (fields, cond) =>
    match fields.getLast? with
    | none => .error (.SyntaxError "No table in SELECT")
    | some table => .ok (.Select table fields.dropLast cond)

/-- The column loop of `parse_create_command`: each remaining pair yields a
name and a type keyword; an unknown keyword is a syntax error. -/
def createCols : List Pair → DbResult (List (String × DataType))
  | [] => .ok []
  | column :: rest =>
    match column.inner with
    | [] => .error (.SyntaxError "No name for column in CREATE")
    | namep :: defrest =>
      match defrest with
      | [] => .error (.SyntaxError "No type in CREATE")
      | typp :: _ =>
        let dtype : DbResult DataType :=
          match typp.text with
          | "Int" => .ok .Int
          | "Float" => .ok .Float
          | "Bool" => .ok .Bool
          | "String" => .ok .String
          | _ => .error (.SyntaxError "Unknown type in CREATE")
        match dtype with
        | .error e => .error e
        | .ok d =>
          match createCols rest with
          | .error e => .error e
          | .ok cols => .ok ((namep.text, d) :: cols)

/-- `parse_create_command` of `queries.rs`: table name, primary key, then
the column definitions. -/
def parse_create_command (pair : Pair) : DbResult Query :=
  match pair.inner with
  | [] => .error (.SyntaxError "No table in CREATE")
  | tp :: rest =>
    match rest with
    | [] => .error (.SyntaxError "No primary key in CREATE")
    | pkp :: cols =>
      match createCols cols with
      | .error e => .error e
      | .ok columns => .ok (.Create tp.text pkp.text columns)

/-- `parse_delete_command` of `queries.rs`: the value pair is taken first
but parsed only after the table name has been extracted, as in the source. -/
def parse_delete_command (pair : Pair) : DbResult Query :=
  match pair.inner with
  | [] => .error (.SyntaxError "No value in DELETE")
  | v :: rest =>
    match rest with
    | [] => .error (.SyntaxError "No table in DELETE")
    | tp :: _ =>
      match parse_value v with
      | .error e => .error e
      | .ok value => .ok (.Delete tp.text value)

/-- The loop of `parse_insert_command`: assignments accumulate as values,
an ident sets the table name, anything else aborts. -/
def insertFold : List Pair → List (String × Value) → Option String → DbResult Query
  | [], values, table =>
    match table with
    | some t => .ok (.Insert t values)
    | none => .error (.SyntaxError "No table name in INSERT")
  | p :: rest, values, table =>
    match p.rule with
    | .assigment =>
      match p.inner with
      | [] => .error (.SyntaxError "No column name in INSERT")
      | colp :: arest =>
        match arest with
        | [] => .error (.SyntaxError "No value in INSERT")
        | valp :: _ =>
          match parse_value valp with
          | .error e => .error e
          | .ok value => insertFold rest (values ++ [(colp.text, value)]) table
    | .ident => insertFold rest values (some p.text)
    | _ => .error (.SyntaxError "Unknown syntax of INSERT")

/-- `parse_insert_command` of `queries.rs`. -/
def parse_insert_command (pair : Pair) : DbResult Query :=
  insertFold pair.inner [] none

/-- `parse` of `queries.rs` over the outcome of the (spec-modelled) grammar
stage: a grammar error becomes a `SyntaxError`, an empty pair stream is a
`SyntaxError`, and the first pair is dispatched on its rule. -/
def parse (pestResult : Except String (List Pair)) : DbResult Query :=
  match pestResult with
  | .error e => .error (.SyntaxError e)
  | .ok pairs =>
    match pairs with
    | [] => .error (.SyntaxError "Invalid query format")
    | pair :: _ =>
      match pair.rule with
      | .select_cmd => parse_select_command pair
      | .create_cmd => parse_create_command pair
      | .delete_cmd => parse_delete_command pair
      | .insert_cmd => parse_insert_command pair
      | .save_cmd =>
        match pair.inner with
        | p :: _ => .ok (.SaveAs p.text)
        | [] => .error (.InvalidPath "No path")
      | .read_cmd =>
        match pair.inner with
        | p :: _ => .ok (.ReadFrom p.text)
        | [] => .error (.InvalidPath "No path")
      | _ => .error (.SyntaxError "Invalid query format")

/-! ### Spec-side definitions

These follow the spec's wording rather than the code; the claim theorems
relate them to the translated code. -/

/-- Spec-side: a parse result that is either a complete query or a
`SyntaxError` (spec 4.1: no other failure kind). -/
def okOrSyntax {α : Type} (r : DbResult α) : Prop :=
  (∃ a, r = .ok a) ∨ ∃ m, r = .error (.SyntaxError m)

/-- Modelled from the spec: in the grammar, `SAVE_AS` and `READ_FROM`
always carry their path operand, so a pair for those rules has a non-empty
inner list. -/
def SaveReadWF (res : Except String (List Pair)) : Bool :=
  match res with
  | .ok (p :: _) =>
    !((p.rule == .save_cmd || p.rule == .read_cmd) && p.inner.isEmpty)
  | _ => true

/-- Spec-side: a schema column is present in the record with a value of
exactly the declared variant (spec 4.5). -/
def columnOk (r : Record) (p : String × DataType) : Bool :=
  match r.fields p.1 with
  | some v => typeValid v p.2
  | none => false

/-- Spec-side: whether the condition column of a Select is present in a
record (vacuously true without a condition). -/
def condColPresent (condition : Option Condition) (r : Record) : Bool :=
  match condition with
  | none => true
  | some c => (r.fields c.column).isSome

/-- Spec-side: whether a record survives the optional condition (spec 4.6:
rows failing the condition are skipped). -/
def specPasses (condition : Option Condition) (r : Record) : Bool :=
  match condition with
  | none => true
  | some c =>
    match r.fields c.column with
    | some v => evaluate_condition v c.value c.operator
    | none => false

/-- Display of an optional value; the `none` branch is never reached under
the presence hypotheses of the Select theorem. -/
def displayOpt : Option Value → String
  | some v => v.display
  | none => ""

/-- Spec-side: one projected row — the requested columns in the requested
order, joined with a comma and space. -/
def specRow (fields : List String) (r : Record) : String :=
  String.intercalate ", " (fields.map (fun f => displayOpt (r.fields f)))

/-- Sortedness invariant of the `BTreeMap` model: keys strictly ascend. -/
def StoreWF {K : Type} [LinearOrder K] (l : List (K × Record)) : Prop :=
  l.Pairwise (fun a b => a.1 < b.1)

/-! ### Operation sequences (for the scan cardinality claim) -/

/-- A single mutating table statement: an insert of a record or a delete of
a key. -/
inductive TableOp (K : Type) where
  | ins (r : Record)
  | del (k : K)

/-- Run one operation through the command layer, reporting success. -/
def applyOp {K : Type} [LinearOrder K] [DatabaseKey K] (t : Table K) :
    TableOp K → Table K × Bool
  | .ins r =>
    match Table.insert t r with
    | (.ok _, t') => (t', true)
    | (.error _, t') => (t', false)
  | .del k =>
    match DeleteCommand.execute t k with
    | (.ok _, t') => (t', true)
    | (.error _, t') => (t', false)

/-- Run a sequence of operations, counting successful inserts and
successful deletes. -/
def applyOps {K : Type} [LinearOrder K] [DatabaseKey K] (t : Table K) :
    List (TableOp K) → Table K × Nat × Nat
  | [] => (t, 0, 0)
  | op :: rest =>
    let step := applyOp t op
    let then_ := applyOps step.1 rest
    match op, step.2 with
    | .ins _, true => (then_.1, then_.2.1 + 1, then_.2.2)
    | .del _, true => (then_.1, then_.2.1, then_.2.2 + 1)
    | _, _ => (then_.1, then_.2.1, then_.2.2)

/-! ### Concrete fixtures for witnesses and counterexamples -/

/-- A record `{id: 5, age: 7}`. -/
def recGood : Record := ⟨collectFields [("id", .Int 5), ("age", .Int 7)]⟩

/-- A record `{id: 5, age: "x"}` — wrong variant for an Int column. -/
def recBadType : Record := ⟨collectFields [("id", .Int 5), ("age", .String "x")]⟩

/-- A record `{id: 5, age: 8}` — schema-valid, pk value 5. -/
def recDup : Record := ⟨collectFields [("id", .Int 5), ("age", .Int 8)]⟩

/-- A users table with Int keys, schema `{id: Int, age: Int}` and one
stored record under key 5. -/
def usersTable : Table Int :=
  ⟨"users", "id", [("id", .Int), ("age", .Int)], [((5 : Int), recGood)]⟩

/-- Record `{id: 1, sex: "male", job: "actor"}`. -/
def recActor : Record :=
  ⟨collectFields [("id", .Int 1), ("sex", .String "male"), ("job", .String "actor")]⟩

/-- Record `{id: 2, sex: "female", job: "actress"}`. -/
def recActress : Record :=
  ⟨collectFields [("id", .Int 2), ("sex", .String "female"), ("job", .String "actress")]⟩

/-- Record `{id: 2, job: "actress"}` without a `sex` column. -/
def recNoSex : Record :=
  ⟨collectFields [("id", .Int 2), ("job", .String "actress")]⟩

/-- A people table with two records. -/
def peopleTable : Table Int :=
  ⟨"people", "id",
    [("id", .Int), ("sex", .String), ("job", .String)],
    [((1 : Int), recActor), ((2 : Int), recActress)]⟩

/-- A people table whose second record lacks the `sex` column. -/
def peopleTableNoSex : Table Int :=
  ⟨"people", "id",
    [("id", .Int), ("sex", .String), ("job", .String)],
    [((1 : Int), recActor), ((2 : Int), recNoSex)]⟩

/-- The condition `sex = "male"`. -/
def condMale : Condition := ⟨"sex", .Equal, .String "male"⟩

/-- The empty Int-keyed database. -/
def emptyIntDb : Database Int := Database.new

/-- A well-formed select pair stream (modelled pest output for
`SELECT job FROM people`). -/
def selectPairs : Except String (List Pair) :=
  .ok [Pair.mk .select_cmd "SELECT job FROM people"
    [Pair.mk .ident "job" [], Pair.mk .ident "people" []]]

/-! ## Supporting lemmas -/

theorem Table.insert_error {K : Type} [LinearOrder K] [DatabaseKey K]
    {t : Table K} {r : Record} {e : DbError} {t' : Table K}
    (h : Table.insert t r = (.error e, t')) : t' = t := by
  unfold Table.insert at h
  repeat' split at h
  all_goals simp_all

theorem Table.insert_error_fst {K : Type} [LinearOrder K] [DatabaseKey K]
    {t : Table K} {r : Record} {e : DbError}
    (h : (Table.insert t r).1 = .error e) : (Table.insert t r).2 = t :=
  Table.insert_error (by rw [← h])

theorem insertCmd_error {K : Type} [LinearOrder K] [DatabaseKey K]
    {t : Table K} {r : Record} {e : DbError} {t' : Table K}
    (h : InsertCommand.execute t r = (.error e, t')) : t' = t := by
  unfold InsertCommand.execute at h
  rcases hins : Table.insert t r with ⟨res, t₁⟩
  rw [hins] at h
  cases res with
  | ok a => simp at h
  | error e₁ =>
    simp only at h
    obtain ⟨-, h2⟩ := Prod.mk.injEq .. ▸ h
    exact h2 ▸ Table.insert_error hins

theorem insertCmd_error_fst {K : Type} [LinearOrder K] [DatabaseKey K]
    {t : Table K} {r : Record} {e : DbError}
    (h : (InsertCommand.execute t r).1 = .error e) :
    (InsertCommand.execute t r).2 = t :=
  insertCmd_error (by rw [← h])

theorem btRemove_none {K : Type} [LinearOrder K] {k : K} :
    ∀ {l : List (K × Record)},
    (btRemove k l).1 = none → (btRemove k l).2 = l := by
  intro l
  induction l with
  | nil => intro _; rfl
  | cons p rest ih =>
    intro h
    obtain ⟨k', r'⟩ := p
    by_cases hk : k = k'
    · simp [btRemove, hk] at h
    · simp only [btRemove, if_neg hk] at h ⊢
      rw [ih h]

theorem deleteCmd_error {K : Type} [LinearOrder K] [DatabaseKey K]
    {t : Table K} {k : K} {e : DbError} {t' : Table K}
    (h : DeleteCommand.execute t k = (.error e, t')) : t' = t := by
  unfold DeleteCommand.execute at h
  rcases hdel : Table.delete t k with ⟨res, t₁⟩
  rw [hdel] at h
  cases res with
  | some r => simp at h
  | none =>
    simp only at h
    obtain ⟨-, h2⟩ := Prod.mk.injEq .. ▸ h
    subst h2
    unfold Table.delete at hdel
    have h1 : (btRemove k t.store).1 = none := by
      have := congrArg Prod.fst hdel
      simpa using this
    have h3 : t₁ = { t with store := (btRemove k t.store).2 } := by
      have := congrArg Prod.snd hdel
      simpa using this.symm
    rw [h3, btRemove_none h1]

theorem deleteCmd_error_fst {K : Type} [LinearOrder K] [DatabaseKey K]
    {t : Table K} {k : K} {e : DbError}
    (h : (DeleteCommand.execute t k).1 = .error e) :
    (DeleteCommand.execute t k).2 = t :=
  deleteCmd_error (by rw [← h])

theorem Database.create_table_error {K : Type} {db : Database K} {tbl : Table K}
    {e : DbError} {db' : Database K}
    (h : Database.create_table db tbl = (.error e, db')) : db' = db := by
  unfold Database.create_table at h
  split at h <;> simp_all

theorem Database.get_table_ok {K : Type} {db : Database K} {name : String}
    {t : Table K} (h : Database.get_table db name = .ok t) :
    db.tables name = some t := by
  unfold Database.get_table at h
  split at h <;> simp_all

theorem Database.setTable_self {K : Type} {db : Database K} {name : String}
    {t : Table K} (h : db.tables name = some t) : db.setTable name t = db := by
  obtain ⟨tbls⟩ := db
  unfold Database.setTable
  congr 1
  funext n
  by_cases hn : n = name
  · subst hn; simpa using h.symm
  · simp [hn]

/-! ## Claim theorems -/

/-- C1: the claim says that for values of different variants the
equality-style operators (`=` and `!=`) both return false and the ordering
operators are never true.  The derived `PartialEq`/`PartialOrd` instances
refute this: `!=` on a `String` and an `Int` returns true, and the ordering
operators order different variants by declaration order, so `Int < String`
is true. -/
theorem c1_counterexample :
    evaluate_condition (.String "a") (.Int 0) .NotEqual = true ∧
    evaluate_condition (.Int 0) (.String "a") .LessThan = true := by
  decide

/-- C1 (amended): for values of different variants, `=` yields false, `!=`
yields true, and each ordering operator compares the variant tags in
declaration order (`Int < String < Bool < Float`), never the payloads. -/
theorem c1_amended (v1 v2 : Value) (h : v1.discr ≠ v2.discr) :
    evaluate_condition v1 v2 .Equal = false ∧
    evaluate_condition v1 v2 .NotEqual = true ∧
    evaluate_condition v1 v2 .LessThan = decide (v1.discr < v2.discr) ∧
    evaluate_condition v1 v2 .LessThanOrEqual = decide (v1.discr < v2.discr) ∧
    evaluate_condition v1 v2 .GreaterThan = decide (v2.discr < v1.discr) ∧
    evaluate_condition v1 v2 .GreaterThanOrEqual = decide (v2.discr < v1.discr) := by
  cases v1 <;> cases v2 <;>
    first
    | exact absurd rfl h
    | exact ⟨rfl, rfl, rfl, rfl, rfl, rfl⟩

/-- C1 (amended) at a concrete cross-variant pair. -/
theorem c1_amended_witness :
    evaluate_condition (.String "a") (.Int 0) .Equal = false ∧
    evaluate_condition (.String "a") (.Int 0) .NotEqual = true ∧
    evaluate_condition (.String "a") (.Int 0) .LessThan = false ∧
    evaluate_condition (.String "a") (.Int 0) .LessThanOrEqual = false ∧
    evaluate_condition (.String "a") (.Int 0) .GreaterThan = true ∧
    evaluate_condition (.String "a") (.Int 0) .GreaterThanOrEqual = true :=
  c1_amended (.String "a") (.Int 0) (by decide)

/-- C3: the claim says an insert whose primary-key value already exists
always fails with `DuplicateKey`.  Schema validation runs first, so a
record with an existing key but an ill-typed column fails with
`TypeMismatch` instead. -/
theorem c3_counterexample :
    btContainsKey (5 : Int) usersTable.store = true ∧
    recBadType.fields usersTable.pk_name = some (.Int 5) ∧
    (Table.insert usersTable recBadType).1 = .error (.TypeMismatch "Invalid type") ∧
    (Table.insert usersTable recBadType).2 = usersTable := by
  refine ⟨by decide, by decide, by decide, rfl⟩

/-- C3 (amended): for a record that validates against the schema and whose
primary-key value narrows to a key already present, `Table::insert` fails
with `DuplicateKey` and leaves the table (hence the store) unchanged. -/
theorem c3_amended {K : Type} [LinearOrder K] [DatabaseKey K]
    (t : Table K) (r : Record) (v : Value) (k : K)
    (hval : r.validate t.schema = .ok ())
    (hpk : r.fields t.pk_name = some v)
    (hk : DatabaseKey.from_value (K := K) v = some k)
    (hdup : btContainsKey k t.store = true) :
    Table.insert t r = (.error .DuplicateKey, t) := by
  simp [Table.insert, hval, hpk, hk, hdup]

/-- C3 (amended) at a concrete duplicate insert. -/
theorem c3_amended_witness :
    Table.insert usersTable recDup = (.error .DuplicateKey, usersTable) :=
  c3_amended usersTable recDup (.Int 5) 5 (by decide) (by decide) (by decide)
    (by decide)

/-- C8: the claim says every table registered through the Create path has
its primary-key column among its schema columns.  Nothing on that path
checks this: `CREATE people KEY foo FIELDS id:Int` succeeds and registers a
table whose pk column `foo` is not a schema column. -/
theorem c8_counterexample :
    (run_generic_query emptyIntDb (.Create "people" "foo" [("id", .Int)])).1 =
      .ok (some "Table people created.") ∧
    ((run_generic_query emptyIntDb
        (.Create "people" "foo" [("id", .Int)])).2.tables "people").map
      (fun t => (t.pk_name, decide (t.pk_name ∈ t.schema.map Prod.fst))) =
      some ("foo", false) := by
  refine ⟨by decide, by decide⟩

/-- C8 (amended): the Create path registers the table unconditionally on
the primary-key name — whenever the table name is free, creation succeeds
with exactly the given pk name and collected schema, with no membership
check of the pk in the schema. -/
theorem c8_amended {K : Type} [LinearOrder K] [DatabaseKey K]
    (db : Database K) (name pk : String) (columns : List (String × DataType))
    (h : db.tables name = none) :
    run_generic_query db (.Create name pk columns) =
      (.ok (some ("Table " ++ name ++ " created.")),
       ⟨fun n => if n = name then
          some (Table.new name (collectSchema columns) pk)
        else db.tables n⟩) := by
  simp [run_generic_query, CreateTableCommand.execute, Database.create_table,
    Table.new, h]

/-- C8 (amended) at the concrete foreign-pk create. -/
theorem c8_amended_witness :
    run_generic_query emptyIntDb (.Create "people" "foo" [("id", .Int)]) =
      (.ok (some ("Table " ++ "people" ++ " created.")),
       ⟨fun n => if n = "people" then
          some (Table.new "people" (collectSchema [("id", .Int)]) "foo")
        else emptyIntDb.tables n⟩) :=
  c8_amended emptyIntDb "people" "foo" [("id", .Int)] rfl

theorem foldl_hmStep_agree (c : String) :
    ∀ (l : List (String × Value)) (m m' : String → Option Value),
      (∀ x, x ≠ c → m x = m' x) → c ∈ l.map Prod.fst →
      l.foldl hmStep m = l.foldl hmStep m' := by
  intro l
  induction l with
  | nil => intro m m' _ hc; simp at hc
  | cons p rest ih =>
    intro m m' hagree hc
    obtain ⟨k, v⟩ := p
    by_cases hk : k = c
    · subst hk
      have hstep : hmStep m (k, v) = hmStep m' (k, v) := by
        funext x
        by_cases hx : x = k
        · simp [hmStep, hx]
        · simp [hmStep, hx, hagree x hx]
      simp only [List.foldl_cons, hstep]
    · have hc' : c ∈ rest.map Prod.fst := by
        simp at hc
        rcases hc with h1 | h1
        · exact absurd h1.symm hk
        · simpa using h1
      refine ih (hmStep m (k, v)) (hmStep m' (k, v)) ?_ hc'
      intro x hx
      by_cases hxk : x = k <;> simp [hmStep, hxk, hagree x hx]

/-- C10: in the Insert branch, the record is built by collecting the parsed
column/value list into a map, so an earlier occurrence of a duplicated
column is silently overwritten by the last one — dropping the earlier
occurrence does not change the collected fields or the whole execution —
and the collected value of a column is its last occurrence.  No error
reports the duplication. -/
theorem c10_duplicate_columns {K : Type} [LinearOrder K] [DatabaseKey K]
    (db : Database K) (table : String)
    (l1 l2 l : List (String × Value)) (c : String) (v : Value)
    (hc : c ∈ l2.map Prod.fst) :
    collectFields (l1 ++ (c, v) :: l2) = collectFields (l1 ++ l2) ∧
    run_generic_query db (.Insert table (l1 ++ (c, v) :: l2)) =
      run_generic_query db (.Insert table (l1 ++ l2)) ∧
    collectFields (l ++ [(c, v)]) c = some v := by
  have hmain : collectFields (l1 ++ (c, v) :: l2) = collectFields (l1 ++ l2) := by
    unfold collectFields
    rw [List.foldl_append, List.foldl_append, List.foldl_cons]
    refine foldl_hmStep_agree c l2 _ _ ?_ hc
    intro x hx
    simp [hmStep, hx]
  refine ⟨hmain, ?_, ?_⟩
  · simp only [run_generic_query, hmain]
  · unfold collectFields
    rw [List.foldl_append]
    simp [hmStep]

/-- C10 at a concrete duplicated column. -/
theorem c10_duplicate_columns_witness :
    collectFields ([("a", Value.Int 1)] ++ ("a", Value.Int 9) :: [("a", Value.Int 2)]) =
      collectFields ([("a", Value.Int 1)] ++ [("a", Value.Int 2)]) ∧
    run_generic_query emptyIntDb
        (.Insert "t" ([("a", Value.Int 1)] ++ ("a", Value.Int 9) :: [("a", Value.Int 2)])) =
      run_generic_query emptyIntDb
        (.Insert "t" ([("a", Value.Int 1)] ++ [("a", Value.Int 2)])) ∧
    collectFields ([("b", Value.Int 0)] ++ [("a", Value.Int 9)]) "a" =
      some (Value.Int 9) :=
  c10_duplicate_columns emptyIntDb "t" [("a", .Int 1)] [("a", .Int 2)]
    [("b", .Int 0)] "a" (.Int 9) (by decide)

/-- C2: a statement whose execution returns an error leaves the database —
every table — exactly as it was: the dispatcher hands back the input
database on every error path, because `Table::insert` validates and checks
both keys before its single store write, `Database::create_table` checks
the name before registering, and a failed delete removed nothing. -/
theorem c2_error_no_mutation {K : Type} [LinearOrder K] [DatabaseKey K]
    (db : Database K) (q : Query) (e : DbError)
    (h : (run_generic_query db q).1 = .error e) :
    (run_generic_query db q).2 = db := by
  cases q with
  | Select table fields condition =>
    simp only [run_generic_query]
    split
    · rfl
    · rfl
  | Create table pk columns =>
    simp only [run_generic_query, CreateTableCommand.execute] at h ⊢
    rcases hct : Database.create_table db
        (Table.new table (collectSchema columns) pk) with ⟨res, db'⟩
    rw [hct] at h
    cases res with
    | ok a => simp at h
    | error e₁ => exact Database.create_table_error hct
  | Insert table values =>
    simp only [run_generic_query] at h ⊢
    rcases hgt : db.get_table table with e₁ | t
    · rfl
    · rw [hgt] at h
      change (InsertCommand.execute t ⟨collectFields values⟩).1 = .error e at h
      change db.setTable table (InsertCommand.execute t ⟨collectFields values⟩).2 = db
      rw [insertCmd_error_fst h]
      exact Database.setTable_self (Database.get_table_ok hgt)
  | Delete table key_value =>
    simp only [run_generic_query] at h ⊢
    rcases hfv : DatabaseKey.from_value (K := K) key_value with _ | k
    · rfl
    · rw [hfv] at h
      rcases hgt : db.get_table table with e₁ | t
      · rfl
      · rw [hgt] at h
        change (DeleteCommand.execute t k).1 = .error e at h
        change db.setTable table (DeleteCommand.execute t k).2 = db
        rw [deleteCmd_error_fst h]
        exact Database.setTable_self (Database.get_table_ok hgt)
  | SaveAs path => simp [run_generic_query] at h
  | ReadFrom path => simp [run_generic_query] at h

/-- C2 at a concrete failing insert (table does not exist). -/
theorem c2_error_no_mutation_witness :
    (run_generic_query emptyIntDb (.Insert "users" [("id", Value.Int 1)])).2 =
      emptyIntDb :=
  c2_error_no_mutation emptyIntDb (.Insert "users" [("id", .Int 1)])
    (.TableNotFound "users") (by decide)

theorem validate_ok_iff (r : Record) : ∀ s : Schema,
    r.validate s = .ok () ↔ ∀ p ∈ s, columnOk r p = true := by
  intro s
  induction s with
  | nil => simp [Record.validate]
  | cons p rest ih =>
    obtain ⟨c, ty⟩ := p
    simp only [Record.validate]
    rcases hf : r.fields c with _ | val
    · simp [columnOk, hf]
    · by_cases hv : typeValid val ty = true
      · simp [Record.check_type, hv, ih, columnOk, hf]
      · simp [Record.check_type, hv, columnOk, hf]

theorem validate_error_kinds (r : Record) : ∀ (s : Schema) (e : DbError),
    r.validate s = .error e →
      (∃ c, e = .ColumnNotFound c ∧ c ∈ s.map Prod.fst ∧ r.fields c = none) ∨
      (e = .TypeMismatch "Invalid type" ∧
        ∃ p ∈ s, (r.fields p.1).isSome ∧ columnOk r p = false) := by
  intro s
  induction s with
  | nil => intro e h; simp [Record.validate] at h
  | cons p rest ih =>
    obtain ⟨c, ty⟩ := p
    intro e h
    simp only [Record.validate] at h
    rcases hf : r.fields c with _ | val
    · rw [hf] at h
      simp only [Except.error.injEq] at h
      exact Or.inl ⟨c, h.symm, by simp, hf⟩
    · rw [hf] at h
      by_cases hv : typeValid val ty = true
      · simp only [Record.check_type, if_pos hv] at h
        rcases ih e h with ⟨c', he, hmem, hnone⟩ | ⟨he, p', hmem, hrest⟩
        · exact Or.inl ⟨c', he, by simp [hmem], hnone⟩
        · exact Or.inr ⟨he, p', by simp [hmem], hrest⟩
      · simp only [Record.check_type, if_neg hv, Except.error.injEq] at h
        refine Or.inr ⟨h.symm, (c, ty), by simp, by simp [hf], ?_⟩
        simp [columnOk, hf, hv]

theorem validate_congr (r r' : Record) : ∀ s : Schema,
    (∀ c ∈ s.map Prod.fst, r.fields c = r'.fields c) →
    r.validate s = r'.validate s := by
  intro s
  induction s with
  | nil => intro _; rfl
  | cons p rest ih =>
    obtain ⟨c, ty⟩ := p
    intro hagree
    have hc : r.fields c = r'.fields c := hagree c (by simp)
    simp only [Record.validate, ← hc]
    rcases hf : r.fields c with _ | val
    · rfl
    · rcases hct : Record.check_type val ty with e | u
      · simp only [hct]
      · simp only [hct]
        exact ih (fun c' hc' => hagree c' (by simp [hc']))

/-- C4: `validate(R,S)` succeeds iff every schema column is present in the
record with exactly the declared variant; a failure is either a
`ColumnNotFound` naming a schema column absent from the record or the
`TypeMismatch` produced by a present value of the wrong variant, each
produced in exactly those situations; and validation reads only the
record's values at schema columns, so surplus fields are never inspected. -/
theorem c4_validate (r : Record) (s : Schema) :
    (r.validate s = .ok () ↔ ∀ p ∈ s, columnOk r p = true) ∧
    (∀ e, r.validate s = .error e →
      (∃ c, e = .ColumnNotFound c ∧ c ∈ s.map Prod.fst ∧ r.fields c = none) ∨
      (e = .TypeMismatch "Invalid type" ∧
        ∃ p ∈ s, (r.fields p.1).isSome ∧ columnOk r p = false)) ∧
    (∀ r' : Record, (∀ c ∈ s.map Prod.fst, r.fields c = r'.fields c) →
      r.validate s = r'.validate s) ∧
    ((∃ c ∈ s.map Prod.fst, r.fields c = none) →
      (∀ p ∈ s, (r.fields p.1).isSome → columnOk r p = true) →
      ∃ c, c ∈ s.map Prod.fst ∧ r.fields c = none ∧
        r.validate s = .error (.ColumnNotFound c)) ∧
    ((∀ p ∈ s, (r.fields p.1).isSome) →
      (∃ p ∈ s, columnOk r p = false) →
      r.validate s = .error (.TypeMismatch "Invalid type")) := by
  refine ⟨validate_ok_iff r s, validate_error_kinds r s,
    (fun r' => validate_congr r r' s), ?_, ?_⟩
  · intro hmissing hwell
    obtain ⟨c, hcmem, hcnone⟩ := hmissing
    have hnotok : r.validate s ≠ .ok () := by
      intro hok
      obtain ⟨p, hp, hpc⟩ := List.mem_map.mp hcmem
      have hcol := (validate_ok_iff r s).mp hok p hp
      have h2 : r.fields p.1 = none := by rw [hpc]; exact hcnone
      simp [columnOk, h2] at hcol
    rcases hres : r.validate s with e | u
    · rcases validate_error_kinds r s e hres with ⟨c', he, hmem, hnone⟩ |
        ⟨he, p', hmem, hsome, hbad⟩
      · exact ⟨c', hmem, hnone, congrArg Except.error he⟩
      · exact absurd (hwell p' hmem hsome) (by simp [hbad])
    · exact absurd (by simpa using hres) hnotok
  · intro hall hbad
    obtain ⟨p, hp, hpbad⟩ := hbad
    have hnotok : r.validate s ≠ .ok () := by
      intro hok
      have hcol := (validate_ok_iff r s).mp hok p hp
      simp [hcol] at hpbad
    rcases hres : r.validate s with e | u
    · rcases validate_error_kinds r s e hres with ⟨c', he, hmem, hnone⟩ | ⟨he, -⟩
      · obtain ⟨q, hq, hqc⟩ := List.mem_map.mp hmem
        have hq2 := hall q hq
        rw [hqc] at hq2
        simp [hnone] at hq2
      · exact congrArg Except.error he
    · exact absurd (by simpa using hres) hnotok

/-- C4 at concrete records: a well-typed record validates, a record with a
wrong-variant column yields exactly the type-mismatch error. -/
theorem c4_validate_witness :
    recGood.validate usersTable.schema = .ok () ∧
    recBadType.validate usersTable.schema = .error (.TypeMismatch "Invalid type") :=
  ⟨(c4_validate recGood usersTable.schema).1.mpr (by decide),
   (c4_validate recBadType usersTable.schema).2.2.2.2 (by decide) (by decide)⟩

theorem btContainsKey_false_remove {K : Type} [LinearOrder K] {k : K} :
    ∀ {l : List (K × Record)}, btContainsKey k l = false → btRemove k l = (none, l) := by
  intro l
  induction l with
  | nil => intro _; rfl
  | cons p rest ih =>
    intro h
    obtain ⟨k₁, r₁⟩ := p
    simp only [btContainsKey, List.any_cons, Bool.or_eq_false_iff,
      decide_eq_false_iff_not] at h
    have hne : k ≠ k₁ := fun hk => h.1 (hk ▸ rfl)
    simp only [btRemove, if_neg hne]
    rw [ih h.2]

theorem btRemove_wf_found {K : Type} [LinearOrder K] {k : K} :
    ∀ {l : List (K × Record)}, StoreWF l → btContainsKey k l = true →
      ∃ r l', btRemove k l = (some r, l') ∧ (k, r) ∈ l ∧
        btContainsKey k l' = false ∧ (∀ p ∈ l', p ∈ l) ∧
        (∀ p ∈ l, p.1 ≠ k → p ∈ l') ∧ l'.length + 1 = l.length ∧ StoreWF l' := by
  intro l
  induction l with
  | nil => intro _ h; simp [btContainsKey] at h
  | cons p rest ih =>
    intro hwf hc
    obtain ⟨k₁, r₁⟩ := p
    have hhead : ∀ q ∈ rest, k₁ < q.1 := by
      intro q hq
      exact (List.pairwise_cons.mp hwf).1 q hq
    have hwfrest : StoreWF rest := (List.pairwise_cons.mp hwf).2
    by_cases hk : k = k₁
    · subst hk
      refine ⟨r₁, rest, by simp [btRemove], by simp, ?_, ?_, ?_, by simp, hwfrest⟩
      · simp only [btContainsKey, List.any_eq_false]
        intro q hq
        simp only [decide_eq_true_eq]
        exact ne_of_gt (hhead q hq)
      · intro q hq; exact List.mem_cons_of_mem _ hq
      · intro q hq hqk
        rcases List.mem_cons.mp hq with h1 | h1
        · exact absurd (congrArg Prod.fst h1) hqk
        · exact h1
    · have hcrest : btContainsKey k rest = true := by
        simp only [btContainsKey, List.any_cons] at hc
        rcases Bool.or_eq_true_iff.mp hc with h1 | h1
        · exact absurd (of_decide_eq_true h1).symm hk
        · exact h1
      obtain ⟨r, l', hrem, hmem, hnc, hsub, hkeep, hlen, hwfl⟩ := ih hwfrest hcrest
      have hne : k ≠ k₁ := hk
      refine ⟨r, (k₁, r₁) :: l', ?_, List.mem_cons_of_mem _ hmem, ?_, ?_, ?_, ?_, ?_⟩
      · simp only [btRemove, if_neg hne, hrem]
      · simp only [btContainsKey, List.any_cons, Bool.or_eq_false_iff,
          decide_eq_false_iff_not]
        refine ⟨fun hkk => hne hkk.symm, ?_⟩
        simpa [btContainsKey] using hnc
      · intro q hq
        rcases List.mem_cons.mp hq with h1 | h1
        · exact h1 ▸ List.mem_cons_self _ _
        · exact List.mem_cons_of_mem _ (hsub q h1)
      · intro q hq hqk
        rcases List.mem_cons.mp hq with h1 | h1
        · exact h1 ▸ List.mem_cons_self _ _
        · exact List.mem_cons_of_mem _ (hkeep q h1 hqk)
      · simpa using hlen
      · refine List.pairwise_cons.mpr ⟨?_, hwfl⟩
        intro q hq
        exact hhead q (hsub q hq)

/-- C7: deleting an absent key fails with `KeyMismatch` and changes
nothing; deleting a present key succeeds with the confirmation message and
the subsequent state omits exactly that record, keeping every other one. -/
theorem c7_delete {K : Type} [LinearOrder K] [DatabaseKey K]
    (t : Table K) (k : K) :
    (btContainsKey k t.store = false →
      DeleteCommand.execute t k = (.error .KeyMismatch, t)) ∧
    (StoreWF t.store → btContainsKey k t.store = true →
      ∃ r t', DeleteCommand.execute t k = (.ok (some "Deleted record"), t') ∧
        (k, r) ∈ t.store ∧ btContainsKey k t'.store = false ∧
        (∀ p ∈ t'.store, p ∈ t.store) ∧
        (∀ p ∈ t.store, p.1 ≠ k → p ∈ t'.store) ∧
        t'.store.length + 1 = t.store.length) := by
  constructor
  · intro h
    unfold DeleteCommand.execute Table.delete
    rw [btContainsKey_false_remove h]
  · intro hwf hc
    obtain ⟨r, l', hrem, hmem, hnc, hsub, hkeep, hlen, -⟩ := btRemove_wf_found hwf hc
    refine ⟨r, { t with store := l' }, ?_, hmem, hnc, hsub, hkeep, hlen⟩
    unfold DeleteCommand.execute Table.delete
    rw [hrem]

/-- C7 at concrete tables: absent key 7 fails and mutates nothing; present
key 1 succeeds and the survivor state omits it. -/
theorem c7_delete_witness :
    DeleteCommand.execute usersTable (7 : Int) = (.error .KeyMismatch, usersTable) ∧
    ∃ r t', DeleteCommand.execute peopleTable (1 : Int) =
        (.ok (some "Deleted record"), t') ∧
      ((1 : Int), r) ∈ peopleTable.store ∧
      btContainsKey (1 : Int) t'.store = false ∧
      (∀ p ∈ t'.store, p ∈ peopleTable.store) ∧
      (∀ p ∈ peopleTable.store, p.1 ≠ (1 : Int) → p ∈ t'.store) ∧
      t'.store.length + 1 = peopleTable.store.length :=
  ⟨(c7_delete usersTable 7).1 (by decide),
   (c7_delete peopleTable 1).2
     (by norm_num [StoreWF, peopleTable, List.pairwise_cons]) (by decide)⟩

theorem mem_btInsert {K : Type} [LinearOrder K] {k : K} {r : Record} :
    ∀ {l : List (K × Record)} {p : K × Record},
      p ∈ btInsert k r l → p = (k, r) ∨ p ∈ l := by
  intro l
  induction l with
  | nil => intro p hp; simpa [btInsert] using hp
  | cons q rest ih =>
    intro p hp
    obtain ⟨k₁, r₁⟩ := q
    by_cases h1 : k < k₁
    · simp only [btInsert, if_pos h1] at hp
      rcases List.mem_cons.mp hp with h | h
      · exact Or.inl h
      · exact Or.inr h
    · by_cases h2 : k = k₁
      · simp only [btInsert, if_neg h1, if_pos h2] at hp
        rcases List.mem_cons.mp hp with h | h
        · exact Or.inl h
        · exact Or.inr (List.mem_cons_of_mem _ h)
      · simp only [btInsert, if_neg h1, if_neg h2] at hp
        rcases List.mem_cons.mp hp with h | h
        · exact Or.inr (h ▸ List.mem_cons_self _ _)
        · rcases ih h with h3 | h3
          · exact Or.inl h3
          · exact Or.inr (List.mem_cons_of_mem _ h3)

theorem btInsert_wf {K : Type} [LinearOrder K] {k : K} {r : Record} :
    ∀ {l : List (K × Record)}, StoreWF l → StoreWF (btInsert k r l) := by
  intro l
  induction l with
  | nil => intro _; simp [btInsert, StoreWF]
  | cons q rest ih =>
    intro hwf
    obtain ⟨k₁, r₁⟩ := q
    have hhead : ∀ p ∈ rest, k₁ < p.1 := (List.pairwise_cons.mp hwf).1
    have hwfrest : StoreWF rest := (List.pairwise_cons.mp hwf).2
    by_cases h1 : k < k₁
    · simp only [btInsert, if_pos h1]
      refine List.pairwise_cons.mpr ⟨?_, hwf⟩
      intro p hp
      rcases List.mem_cons.mp hp with h | h
      · exact h ▸ h1
      · exact lt_trans h1 (hhead p h)
    · by_cases h2 : k = k₁
      · simp only [btInsert, if_neg h1, if_pos h2]
        refine List.pairwise_cons.mpr ⟨?_, hwfrest⟩
        intro p hp
        exact h2 ▸ hhead p hp
      · simp only [btInsert, if_neg h1, if_neg h2]
        refine List.pairwise_cons.mpr ⟨?_, ih hwfrest⟩
        intro p hp
        rcases mem_btInsert hp with h | h
        · have hk₁ : k₁ < k := lt_of_le_of_ne (not_lt.mp h1) (fun hh => h2 hh.symm)
          exact h ▸ hk₁
        · exact hhead p h

theorem btInsert_length {K : Type} [LinearOrder K] {k : K} {r : Record} :
    ∀ {l : List (K × Record)}, btContainsKey k l = false →
      (btInsert k r l).length = l.length + 1 := by
  intro l
  induction l with
  | nil => intro _; rfl
  | cons q rest ih =>
    intro h
    obtain ⟨k₁, r₁⟩ := q
    simp only [btContainsKey, List.any_cons, Bool.or_eq_false_iff,
      decide_eq_false_iff_not] at h
    by_cases h1 : k < k₁
    · simp [btInsert, if_pos h1]
    · have h2 : k ≠ k₁ := fun hk => h.1 (hk ▸ rfl)
      simp only [btInsert, if_neg h1, if_neg h2, List.length_cons]
      rw [ih h.2]

theorem Table.insert_ok {K : Type} [LinearOrder K] [DatabaseKey K]
    {t : Table K} {rec : Record} {u : Unit} {t' : Table K}
    (h : Table.insert t rec = (.ok u, t')) :
    ∃ k, btContainsKey k t.store = false ∧
      t' = { t with store := btInsert k rec t.store } := by
  unfold Table.insert at h
  split at h
  next e heq => simp at h
  next u₁ heq =>
    split at h
    next heq2 => simp at h
    next v heq2 =>
      split at h
      next heq3 => simp at h
      next k heq3 =>
        split at h
        next hct => simp at h
        next hct =>
          simp only [Prod.mk.injEq] at h
          exact ⟨k, by simpa using hct, h.2.symm⟩

theorem btRemove_sublist {K : Type} [LinearOrder K] (k : K) :
    ∀ l : List (K × Record), (btRemove k l).2.Sublist l := by
  intro l
  induction l with
  | nil => simp [btRemove]
  | cons q rest ih =>
    obtain ⟨k₁, r₁⟩ := q
    by_cases h1 : k = k₁
    · simp only [btRemove, if_pos h1]
      exact List.sublist_cons_self (k₁, r₁) rest
    · simpa [btRemove, if_neg h1] using List.Sublist.cons₂ (k₁, r₁) ih

theorem btRemove_some_length {K : Type} [LinearOrder K] {k : K} {r : Record} :
    ∀ {l : List (K × Record)}, (btRemove k l).1 = some r →
      (btRemove k l).2.length + 1 = l.length := by
  intro l
  induction l with
  | nil => intro h; simp [btRemove] at h
  | cons q rest ih =>
    intro h
    obtain ⟨k₁, r₁⟩ := q
    by_cases h1 : k = k₁
    · simp [btRemove, if_pos h1]
    · simp only [btRemove, if_neg h1] at h ⊢
      simp only [List.length_cons]
      rw [ih h]

theorem DeleteCommand.execute_ok {K : Type} [LinearOrder K] [DatabaseKey K]
    {t : Table K} {k : K} {s : Option String} {t' : Table K}
    (h : DeleteCommand.execute t k = (.ok s, t')) :
    ∃ r, (btRemove k t.store).1 = some r ∧
      t' = { t with store := (btRemove k t.store).2 } := by
  unfold DeleteCommand.execute at h
  simp only [Table.delete] at h
  rcases hrem : (btRemove k t.store).1 with _ | r
  · rw [hrem] at h; simp at h
  · rw [hrem] at h
    simp only [Prod.mk.injEq] at h
    exact ⟨r, rfl, h.2.symm⟩

theorem applyOp_step {K : Type} [LinearOrder K] [DatabaseKey K]
    (t : Table K) (op : TableOp K) (hwf : StoreWF t.store) :
    StoreWF (applyOp t op).1.store ∧
    ((applyOp t op).2 = true →
      (∀ r, op = .ins r → (applyOp t op).1.store.length = t.store.length + 1) ∧
      (∀ k, op = .del k → (applyOp t op).1.store.length + 1 = t.store.length)) ∧
    ((applyOp t op).2 = false → (applyOp t op).1 = t) := by
  cases op with
  | ins r =>
    simp only [applyOp]
    rcases hins : Table.insert t r with ⟨res, t₁⟩
    cases res with
    | ok u =>
      obtain ⟨k, hnc, ht₁⟩ := Table.insert_ok hins
      subst ht₁
      refine ⟨btInsert_wf hwf, ?_, by simp⟩
      intro _
      exact ⟨fun r₂ _ => btInsert_length hnc, fun k₂ hk => by simp at hk⟩
    | error e =>
      have ht₁ : t₁ = t := Table.insert_error hins
      subst ht₁
      exact ⟨hwf, by simp, fun _ => rfl⟩
  | del k =>
    simp only [applyOp]
    rcases hdel : DeleteCommand.execute t k with ⟨res, t₁⟩
    cases res with
    | ok s =>
      obtain ⟨r, hrem, ht₁⟩ := DeleteCommand.execute_ok hdel
      subst ht₁
      refine ⟨List.Pairwise.sublist (btRemove_sublist k t.store) hwf, ?_, by simp⟩
      intro _
      exact ⟨fun r₂ hr => by simp at hr, fun k₂ _ => btRemove_some_length hrem⟩
    | error e =>
      have ht₁ : t₁ = t := deleteCmd_error hdel
      subst ht₁
      exact ⟨hwf, by simp, fun _ => rfl⟩

theorem applyOps_invariant {K : Type} [LinearOrder K] [DatabaseKey K] :
    ∀ (ops : List (TableOp K)) (t : Table K), StoreWF t.store →
      StoreWF (applyOps t ops).1.store ∧
      (applyOps t ops).1.store.length + (applyOps t ops).2.2 =
        t.store.length + (applyOps t ops).2.1 := by
  intro ops
  induction ops with
  | nil => intro t hwf; simpa [applyOps] using hwf
  | cons op rest ih =>
    intro t hwf
    obtain ⟨hwf₁, hlen₁, hfail₁⟩ := applyOp_step t op hwf
    obtain ⟨hwf₂, hlen₂⟩ := ih ((applyOp t op).1) hwf₁
    cases op with
    | ins r =>
      rcases hsucc : (applyOp t (.ins r)).2 with _ | _
      · have ht : (applyOp t (.ins r)).1 = t := hfail₁ hsucc
        simp only [applyOps, hsucc]
        rw [ht] at hwf₂ hlen₂ ⊢
        exact ⟨hwf₂, by omega⟩
      · have hl : (applyOp t (.ins r)).1.store.length = t.store.length + 1 :=
          (hlen₁ hsucc).1 r rfl
        simp only [applyOps, hsucc]
        exact ⟨hwf₂, by omega⟩
    | del k =>
      rcases hsucc : (applyOp t (.del k)).2 with _ | _
      · have ht : (applyOp t (.del k)).1 = t := hfail₁ hsucc
        simp only [applyOps, hsucc]
        rw [ht] at hwf₂ hlen₂ ⊢
        exact ⟨hwf₂, by omega⟩
      · have hl : (applyOp t (.del k)).1.store.length + 1 = t.store.length :=
          (hlen₁ hsucc).2 k rfl
        simp only [applyOps, hsucc]
        exact ⟨hwf₂, by omega⟩

/-- C6: starting from a fresh (empty) table, any operation sequence with N
successful inserts and M successful deletes leaves a store that `scan`
traverses as exactly N − M records (stated additively), and the store's
keys — hence the records `scan` yields — are in strictly ascending
primary-key order. -/
theorem c6_scan_cardinality {K : Type} [LinearOrder K] [DatabaseKey K]
    (ops : List (TableOp K)) (name : String) (schema : Schema) (pk : String) :
    (applyOps (Table.new name schema pk) ops).1.scan.length +
        (applyOps (Table.new name schema pk) ops).2.2 =
      (applyOps (Table.new name schema pk) ops).2.1 ∧
    List.Pairwise (fun a b => a < b)
      ((applyOps (Table.new name schema pk) ops).1.store.map Prod.fst) := by
  obtain ⟨hwf, hlen⟩ :=
    applyOps_invariant ops (Table.new name schema pk) (by simp [Table.new, StoreWF])
  constructor
  · have hscan : (applyOps (Table.new name schema pk) ops).1.scan.length =
        (applyOps (Table.new name schema pk) ops).1.store.length := by
      simp [Table.scan]
    rw [hscan]
    have hempty : (Table.new name schema pk : Table K).store.length = 0 := rfl
    omega
  · exact (List.pairwise_map).mpr hwf

theorem rowFilter_present {condition : Option Condition} {r : Record}
    (h : condColPresent condition r = true) :
    rowFilter condition r = .ok (specPasses condition r) := by
  cases condition with
  | none => rfl
  | some c =>
    simp only [condColPresent] at h
    rcases hf : r.fields c.column with _ | v
    · rw [hf] at h; simp at h
    · simp only [rowFilter, specPasses, hf]

theorem projectRow_ok {r : Record} : ∀ {fields : List String},
    (∀ f ∈ fields, (r.fields f).isSome) →
    projectRow fields r = .ok (fields.map (fun f => displayOpt (r.fields f))) := by
  intro fields
  induction fields with
  | nil => intro _; rfl
  | cons f rest ih =>
    intro h
    have hf : (r.fields f).isSome := h f (by simp)
    rcases hv : r.fields f with _ | v
    · rw [hv] at hf; simp at hf
    · simp only [projectRow, hv,
        ih (fun f₂ hf₂ => h f₂ (List.mem_cons_of_mem _ hf₂))]
      simp [displayOpt, hv]

theorem projectRow_err {r : Record} : ∀ {fields : List String},
    (∃ f ∈ fields, r.fields f = none) →
    ∃ f ∈ fields, projectRow fields r = .error (.ColumnNotFound f) := by
  intro fields
  induction fields with
  | nil => intro h; simp at h
  | cons f rest ih =>
    intro h
    rcases hv : r.fields f with _ | v
    · exact ⟨f, by simp, by simp [projectRow, hv]⟩
    · have h2 : ∃ f₂ ∈ rest, r.fields f₂ = none := by
        rcases h with ⟨f₂, hmem, hnone⟩
        rcases List.mem_cons.mp hmem with h3 | h3
        · rw [h3, hv] at hnone; exact absurd hnone (by simp)
        · exact ⟨f₂, h3, hnone⟩
      obtain ⟨f₂, hmem, herr⟩ := ih h2
      refine ⟨f₂, List.mem_cons_of_mem _ hmem, ?_⟩
      simp only [projectRow, hv, herr]

theorem selectRows_ok {condition : Option Condition} {fields : List String} :
    ∀ {recs : List Record},
    (∀ r ∈ recs, condColPresent condition r = true) →
    (∀ r ∈ recs, specPasses condition r = true → ∀ f ∈ fields, (r.fields f).isSome) →
    selectRows condition fields recs =
      .ok ((recs.filter (specPasses condition)).map (specRow fields)) := by
  intro recs
  induction recs with
  | nil => intro _ _; rfl
  | cons r rest ih =>
    intro hcp hproj
    have hstep := rowFilter_present (hcp r (by simp))
    have ihr := ih (fun r₂ h₂ => hcp r₂ (List.mem_cons_of_mem _ h₂))
      (fun r₂ h₂ => hproj r₂ (List.mem_cons_of_mem _ h₂))
    rcases hpass : specPasses condition r with _ | _
    · rw [hpass] at hstep
      simp only [selectRows, hstep, List.filter_cons, hpass]
      exact ihr
    · rw [hpass] at hstep
      have hrow := projectRow_ok (r := r) (hproj r (by simp) hpass)
      simp only [selectRows, hstep, if_true, hrow, ihr, List.filter_cons, hpass]
      simp [specRow]

theorem selectRows_err_cond {c : Condition} {fields : List String} :
    ∀ {recs : List Record},
    (∀ r ∈ recs, ∀ f ∈ fields, (r.fields f).isSome) →
    (∃ r ∈ recs, r.fields c.column = none) →
    selectRows (some c) fields recs = .error (.ColumnNotFound c.column) := by
  intro recs
  induction recs with
  | nil => intro _ h; simp at h
  | cons r rest ih =>
    intro hproj hex
    rcases hv : r.fields c.column with _ | v
    · simp [selectRows, rowFilter, hv]
    · have hrest : ∃ r₂ ∈ rest, r₂.fields c.column = none := by
        rcases hex with ⟨r₂, hmem, hnone⟩
        rcases List.mem_cons.mp hmem with h3 | h3
        · rw [h3, hv] at hnone; exact absurd hnone (by simp)
        · exact ⟨r₂, h3, hnone⟩
      have ihr := ih (fun r₂ h₂ => hproj r₂ (List.mem_cons_of_mem _ h₂)) hrest
      simp only [selectRows, rowFilter, hv]
      rcases hpass : evaluate_condition v c.value c.operator with _ | _
      · exact ihr
      · have hrow := projectRow_ok (r := r) (hproj r (by simp))
        simp only [if_true, hrow, ihr]

theorem selectRows_err_proj {condition : Option Condition} {fields : List String} :
    ∀ {recs : List Record},
    (∀ r ∈ recs, condColPresent condition r = true) →
    (∃ r ∈ recs, specPasses condition r = true ∧ ∃ f ∈ fields, r.fields f = none) →
    ∃ f ∈ fields, selectRows condition fields recs = .error (.ColumnNotFound f) := by
  intro recs
  induction recs with
  | nil => intro _ h; simp at h
  | cons r rest ih =>
    intro hcp hex
    have hstep := rowFilter_present (hcp r (by simp))
    rcases hpass : specPasses condition r with _ | _
    · rw [hpass] at hstep
      have hrest : ∃ r₂ ∈ rest, specPasses condition r₂ = true ∧
          ∃ f ∈ fields, r₂.fields f = none := by
        rcases hex with ⟨r₂, hmem, hp₂, hf₂⟩
        rcases List.mem_cons.mp hmem with h3 | h3
        · rw [h3] at hp₂; rw [hp₂] at hpass; exact absurd hpass (by simp)
        · exact ⟨r₂, h3, hp₂, hf₂⟩
      obtain ⟨f, hfmem, herr⟩ :=
        ih (fun r₂ h₂ => hcp r₂ (List.mem_cons_of_mem _ h₂)) hrest
      refine ⟨f, hfmem, ?_⟩
      simp only [selectRows, hstep]
      exact herr
    · rw [hpass] at hstep
      by_cases hmiss : ∃ f ∈ fields, r.fields f = none
      · obtain ⟨f, hfmem, herr⟩ := projectRow_err hmiss
        refine ⟨f, hfmem, ?_⟩
        simp only [selectRows, hstep, if_true, herr]
      · have hall : ∀ f ∈ fields, (r.fields f).isSome := by
          intro f hf
          rcases hv : r.fields f with _ | v
          · exact absurd ⟨f, hf, hv⟩ hmiss
          · simp
        have hrest : ∃ r₂ ∈ rest, specPasses condition r₂ = true ∧
            ∃ f ∈ fields, r₂.fields f = none := by
          rcases hex with ⟨r₂, hmem, hp₂, hf₂⟩
          rcases List.mem_cons.mp hmem with h3 | h3
          · exact absurd (h3 ▸ hf₂) hmiss
          · exact ⟨r₂, h3, hp₂, hf₂⟩
        obtain ⟨f, hfmem, herr⟩ :=
          ih (fun r₂ h₂ => hcp r₂ (List.mem_cons_of_mem _ h₂)) hrest
        refine ⟨f, hfmem, ?_⟩
        have hrow := projectRow_ok (r := r) hall
        simp only [selectRows, hstep, if_true, hrow, herr]

/-- C5: `SelectCommand::execute` scans every stored record; under the
optional condition, surviving rows are projected to exactly the requested
columns in the requested order, joined with a comma-space, rows joined with
newline, wrapped in `Some` (conjunct 1); a scanned record lacking the
condition column aborts the whole select with `ColumnNotFound` of that
column (conjunct 2); a condition-surviving record lacking a requested
column aborts with `ColumnNotFound` of a requested column instead of being
skipped (conjunct 3); and zero surviving rows still yield `Some ""`
(conjunct 4). -/
theorem c5_select {K : Type} [LinearOrder K] [DatabaseKey K]
    (t : Table K) (fields : List String) (condition : Option Condition) :
    ((∀ r ∈ t.scan, condColPresent condition r = true) →
     (∀ r ∈ t.scan, specPasses condition r = true →
        ∀ f ∈ fields, (r.fields f).isSome) →
     SelectCommand.execute t fields condition =
       .ok (some (String.intercalate "\n"
         ((t.scan.filter (specPasses condition)).map (specRow fields))))) ∧
    (∀ c, condition = some c →
     (∀ r ∈ t.scan, ∀ f ∈ fields, (r.fields f).isSome) →
     (∃ r ∈ t.scan, r.fields c.column = none) →
     SelectCommand.execute t fields condition = .error (.ColumnNotFound c.column)) ∧
    ((∀ r ∈ t.scan, condColPresent condition r = true) →
     (∃ r ∈ t.scan, specPasses condition r = true ∧ ∃ f ∈ fields, r.fields f = none) →
     ∃ f ∈ fields, SelectCommand.execute t fields condition =
       .error (.ColumnNotFound f)) ∧
    ((∀ r ∈ t.scan, condColPresent condition r = true) →
     t.scan.filter (specPasses condition) = [] →
     SelectCommand.execute t fields condition = .ok (some "")) := by
  refine ⟨?_, ?_, ?_, ?_⟩
  · intro hcp hproj
    unfold SelectCommand.execute
    rw [selectRows_ok hcp hproj]
  · intro c hc hproj hex
    subst hc
    unfold SelectCommand.execute
    rw [selectRows_err_cond hproj hex]
  · intro hcp hex
    obtain ⟨f, hfmem, herr⟩ := selectRows_err_proj hcp hex
    refine ⟨f, hfmem, ?_⟩
    unfold SelectCommand.execute
    rw [herr]
  · intro hcp hempty
    have hproj : ∀ r ∈ t.scan, specPasses condition r = true →
        ∀ f ∈ fields, (r.fields f).isSome := by
      intro r hr hpass f hf
      have : r ∈ t.scan.filter (specPasses condition) :=
        List.mem_filter.mpr ⟨hr, hpass⟩
      rw [hempty] at this
      simp at this
    unfold SelectCommand.execute
    rw [selectRows_ok hcp hproj, hempty]
    rfl

/-- C5 at concrete tables: the filtered-projection result for
`SELECT job FROM people WHERE sex = "male"`, and the abort when a scanned
record lacks the condition column. -/
theorem c5_select_witness :
    SelectCommand.execute peopleTable ["job"] (some condMale) =
      .ok (some (String.intercalate "\n"
        ((peopleTable.scan.filter (specPasses (some condMale))).map
          (specRow ["job"])))) ∧
    SelectCommand.execute peopleTableNoSex ["job"] (some condMale) =
      .error (.ColumnNotFound "sex") :=
  ⟨(c5_select peopleTable ["job"] (some condMale)).1 (by decide) (by decide),
   (c5_select peopleTableNoSex ["job"] (some condMale)).2.1 condMale rfl
     (by decide) (by decide)⟩

theorem error_syntax_of {α : Type} {r : DbResult α} {e : DbError}
    (hr : okOrSyntax r) (he : r = .error e) : ∃ m, e = .SyntaxError m := by
  rcases hr with ⟨a, ha⟩ | ⟨m, hm⟩
  · rw [he] at ha; exact absurd ha (by simp)
  · rw [he] at hm
    exact ⟨m, Except.error.inj hm⟩

theorem okOrSyntax_error {α β : Type} {r : DbResult α} {e : DbError}
    (hr : okOrSyntax r) (he : r = .error e) :
    okOrSyntax (Except.error e : DbResult β) := by
  obtain ⟨m, hm⟩ := error_syntax_of hr he
  subst hm
  exact Or.inr ⟨m, rfl⟩

theorem parse_value_ok (p : Pair) : okOrSyntax (parse_value p) := by
  unfold parse_value
  repeat' split
  all_goals first
    | exact Or.inl ⟨_, rfl⟩
    | exact Or.inr ⟨_, rfl⟩

theorem parse_where_ok (p : Pair) : okOrSyntax (parse_where p) := by
  unfold parse_where
  split
  · exact Or.inr ⟨_, rfl⟩
  · split
    · exact Or.inr ⟨_, rfl⟩
    · split
      · exact Or.inr ⟨_, rfl⟩
      · split
        next e heq => exact okOrSyntax_error (parse_value_ok _) heq
        next value heq =>
          split <;> first
            | exact Or.inl ⟨_, rfl⟩
            | exact Or.inr ⟨_, rfl⟩

theorem selectFold_ok : ∀ (pairs : List Pair) (fields : List String)
    (cond : Option Condition), okOrSyntax (selectFold pairs fields cond) := by
  intro pairs
  induction pairs with
  | nil => intro fields cond; exact Or.inl ⟨_, rfl⟩
  | cons p rest ih =>
    intro fields cond
    unfold selectFold
    split
    · exact ih _ _
    · split
      next c heq => exact ih _ _
      next e heq => exact okOrSyntax_error (parse_where_ok _) heq
    · exact ih _ _

theorem parse_select_command_ok (p : Pair) : okOrSyntax (parse_select_command p) := by
  unfold parse_select_command
  split
  next e heq => exact okOrSyntax_error (selectFold_ok p.inner [] none) heq
  next fields cond heq =>
    split
    · exact Or.inr ⟨_, rfl⟩
    · exact Or.inl ⟨_, rfl⟩

theorem createCols_ok : ∀ cols : List Pair, okOrSyntax (createCols cols) := by
  intro cols
  induction cols with
  | nil => exact Or.inl ⟨_, rfl⟩
  | cons column rest ih =>
    unfold createCols
    split
    · exact Or.inr ⟨_, rfl⟩
    · split
      · exact Or.inr ⟨_, rfl⟩
      · split <;> first
          | exact Or.inr ⟨_, rfl⟩
          | (rcases h2 : createCols rest with e | cols2
             · exact okOrSyntax_error ih h2
             · exact Or.inl ⟨_, rfl⟩)

theorem parse_create_command_ok (p : Pair) : okOrSyntax (parse_create_command p) := by
  unfold parse_create_command
  split
  · exact Or.inr ⟨_, rfl⟩
  · split
    · exact Or.inr ⟨_, rfl⟩
    · split
      next e heq => exact okOrSyntax_error (createCols_ok _) heq
      next columns heq => exact Or.inl ⟨_, rfl⟩

theorem parse_delete_command_ok (p : Pair) : okOrSyntax (parse_delete_command p) := by
  unfold parse_delete_command
  split
  · exact Or.inr ⟨_, rfl⟩
  · split
    · exact Or.inr ⟨_, rfl⟩
    · split
      next e heq => exact okOrSyntax_error (parse_value_ok _) heq
      next value heq => exact Or.inl ⟨_, rfl⟩

theorem insertFold_ok : ∀ (pairs : List Pair) (values : List (String × Value))
    (table : Option String), okOrSyntax (insertFold pairs values table) := by
  intro pairs
  induction pairs with
  | nil =>
    intro values table
    unfold insertFold
    split
    · exact Or.inl ⟨_, rfl⟩
    · exact Or.inr ⟨_, rfl⟩
  | cons p rest ih =>
    intro values table
    unfold insertFold
    split
    · split
      · exact Or.inr ⟨_, rfl⟩
      · split
        · exact Or.inr ⟨_, rfl⟩
        · split
          next e heq => exact okOrSyntax_error (parse_value_ok _) heq
          next value heq => exact ih _ _
    · exact ih _ _
    · exact Or.inr ⟨_, rfl⟩

theorem parse_insert_command_ok (p : Pair) : okOrSyntax (parse_insert_command p) :=
  insertFold_ok p.inner [] none

/-- C9: over every outcome of the (spec-modelled) grammar stage in which a
`SAVE_AS`/`READ_FROM` pair carries its path operand, `parse` either yields
a complete `Query` or fails with a `SyntaxError`; no other error kind is
returned and there is no partial success. -/
theorem c9_parse (res : Except String (List Pair))
    (hwf : SaveReadWF res = true) : okOrSyntax (parse res) := by
  unfold parse
  split
  · exact Or.inr ⟨_, rfl⟩
  next pairs =>
    split
    · exact Or.inr ⟨_, rfl⟩
    next pair rest =>
      split
      next hrule => exact parse_select_command_ok pair
      next hrule => exact parse_create_command_ok pair
      next hrule => exact parse_delete_command_ok pair
      next hrule => exact parse_insert_command_ok pair
      next hrule =>
        split
        · exact Or.inl ⟨_, rfl⟩
        next hinner => simp [SaveReadWF, hrule, hinner] at hwf
      next hrule =>
        split
        · exact Or.inl ⟨_, rfl⟩
        next hinner => simp [SaveReadWF, hrule, hinner] at hwf
      · exact Or.inr ⟨_, rfl⟩

/-- C9 at a concrete well-formed select pair stream. -/
theorem c9_parse_witness : okOrSyntax (parse selectPairs) :=
  c9_parse selectPairs (by decide)

end RustDB
